import Mathlib

/-!
# Shallow embedding of `src/LFUCache.cpp`

The C++ source implements an LFU cache:

* `struct Node` — key, value, access count (`count` starts at 1), and
  doubly-linked-list pointers.
* `struct List` — an intrusive doubly-linked list with `head`/`tail`
  sentinel nodes; `addNode` inserts right after `head` (most-recent end),
  `delNode` unlinks a node; `size` tracks the number of real nodes.
* `class LFUCache` — fields `minf`, `curSize`, `maxSize`,
  `nodeMap : unordered_map<int, Node*>` (key index) and
  `listMap : unordered_map<int, List*>` (bucket index), with
  `updateFreqList`, `get`, `put`.

Embedding choices:

* A bucket (`List`) is modelled as a Lean `List Node` ordered from the
  most-recent end (`head->next`) to the least-recent end (`tail->prev`);
  `addNode` is `cons`, eviction removes the last element.  The `size`
  field of the C++ `List` is exactly the length of this list, so it is not
  modelled separately.
* `unordered_map` is modelled as an association list with the first
  binding for a key shadowing later ones (bindings are unique in all
  reachable states).  `operator[]` assignment / insertion is `aset`,
  `erase` is `aerase`, `find` is `alookup`.
* C++ `int` fields are modelled as `Int` (no arithmetic in the program
  comes close to overflow for the behaviors under study).
* Pointer aliasing: `nodeMap[key]` and the bucket entry are the same heap
  object in C++, so a field update through one is visible through the
  other (the source's commented-out line `// nodeMap[node->key] = node;`
  is unnecessary there for that reason).  The functional embedding makes
  the shared update explicit: `updateFreqList` writes the updated node
  both into its new bucket and into `nodeMap`.
* Undefined behavior is modelled as `none`:
  - in `updateFreqList`, if `listMap` has no bucket for `node->count`,
    C++ `operator[]` default-inserts a null `List*` and `delNode`
    dereferences it; if the node is not in that bucket, the unlink acts
    on a different list than the map says (unrepresentable functionally);
  - in the eviction branch of `put`, if `listMap[minf]` is absent the
    same null dereference happens, and if the bucket is empty
    `tail->prev` is the head sentinel and deleting it corrupts the list.
  The safety claims show these cases are unreachable.
-/

/-- `struct Node` of the source: key, value and access count.  The
`next`/`prev` pointers are represented by the node's position in its
bucket's list. -/
structure Node where
  key : Int
  val : Int
  count : Int
  deriving DecidableEq, Repr

/-- Lookup in an association list (`unordered_map::find`): first binding
wins. -/
def alookup {α : Type} : List (Int × α) → Int → Option α
  | [], _ => none
  | (k, v) :: rest, key => if key = k then some v else alookup rest key

/-- Insertion / assignment in an association list
(`unordered_map::operator[] =`): replaces the first binding of the key,
or appends a new binding at the end. -/
def aset {α : Type} : List (Int × α) → Int → α → List (Int × α)
  | [], key, v => [(key, v)]
  | (k, w) :: rest, key, v =>
      if key = k then (key, v) :: rest else (k, w) :: aset rest key v

/-- Deletion from an association list (`unordered_map::erase`): removes
the first binding of the key. -/
def aerase {α : Type} : List (Int × α) → Int → List (Int × α)
  | [], _ => []
  | (k, w) :: rest, key =>
      if key = k then rest else (k, w) :: aerase rest key

/-- `List::delNode` on the node with the given key: removes the first
node with that key from the bucket. -/
def removeKey : List Node → Int → List Node
  | [], _ => []
  | n :: rest, key => if n.key = key then rest else n :: removeKey rest key

/-- The LFU cache state: `minf`, `curSize`, `maxSize`, the key index
`nodeMap` and the bucket index `listMap`. -/
structure LFUCache where
  minf : Int
  curSize : Int
  maxSize : Int
  nodeMap : List (Int × Node)
  listMap : List (Int × List Node)
  deriving DecidableEq, Repr

namespace LFUCache

/-- The constructor `LFUCache(int capacity)`: stores the capacity,
`curSize = 0`, `minf = 0`, empty maps.  No validation is performed. -/
def init (capacity : Int) : LFUCache :=
  { minf := 0, curSize := 0, maxSize := capacity, nodeMap := [], listMap := [] }

/-- `LFUCache::updateFreqList`: move `node` from the bucket for its
current count to the bucket for `count + 1` (created if absent),
incrementing `minf` when the bucket at `minf` is emptied, and increment
the node's count.  The final `aset` into `nodeMap` makes the pointer
aliasing of the C++ code explicit (the map and the bucket hold the same
node).  Returns `none` on the undefined behaviors described in the
header. -/
def updateFreqList (c : LFUCache) (node : Node) : Option LFUCache :=
  match alookup c.listMap node.count with
  | none => none
  | some list =>
      if node.key ∈ list.map Node.key then
        let list' := removeKey list node.key
        let minf' := if node.count = c.minf ∧ list' = [] then c.minf + 1 else c.minf
        let higherList := (alookup c.listMap (node.count + 1)).getD []
        let node' : Node := { node with count := node.count + 1 }
        some { c with
                minf := minf',
                listMap := aset (aset c.listMap node.count list')
                  (node.count + 1) (node' :: higherList),
                nodeMap := aset c.nodeMap node.key node' }
      else none

/-- `LFUCache::get`: on a hit, capture the value, promote the node's
frequency, and return the captured value; on a miss return `-1` and
leave the state unchanged. -/
def get (c : LFUCache) (key : Int) : Option (Int × LFUCache) :=
  match alookup c.nodeMap key with
  | some resnode =>
      match c.updateFreqList resnode with
      | some c' => some (resnode.val, c')
      | none => none
  | none => some (-1, c)

/-- `LFUCache::put`: no-op when `maxSize == 0`; on an existing key update
the value and promote; otherwise evict the tail of `bucket(minf)` when
full, then insert a fresh node with count 1 at the front of `bucket(1)`
and set `minf = 1`. -/
def put (c : LFUCache) (key value : Int) : Option LFUCache :=
  if c.maxSize = 0 then some c
  else
    match alookup c.nodeMap key with
    | some node => c.updateFreqList { node with val := value }
    | none =>
        let afterEvict : Option LFUCache :=
          if c.curSize = c.maxSize then
            match alookup c.listMap c.minf with
            | none => none
            | some delList =>
                match delList.getLast? with
                | none => none
                | some toBeDeleted =>
                    some { c with
                            nodeMap := aerase c.nodeMap toBeDeleted.key,
                            listMap := aset c.listMap c.minf delList.dropLast,
                            curSize := c.curSize - 1 }
          else some c
        match afterEvict with
        | none => none
        | some c1 =>
            let toBeAdded : Node := ⟨key, value, 1⟩
            let minList := (alookup c1.listMap 1).getD []
            some { c1 with
                    minf := 1,
                    listMap := aset c1.listMap 1 (toBeAdded :: minList),
                    nodeMap := aset c1.nodeMap key toBeAdded,
                    curSize := c1.curSize + 1 }

end LFUCache

/-- One externally visible operation on the cache. -/
inductive Op where
  | get (key : Int)
  | put (key value : Int)
  deriving DecidableEq, Repr

/-- Run one operation (the returned value of `get` is discarded). -/
def step (c : LFUCache) : Op → Option LFUCache
  | .get k => (c.get k).map Prod.snd
  | .put k v => c.put k v

/-- Run a sequence of operations. -/
def run (c : LFUCache) : List Op → Option LFUCache
  | [] => some c
  | op :: ops =>
      match step c op with
      | some c' => run c' ops
      | none => none

/-- A state reachable from a freshly constructed cache of the given
capacity by some sequence of `get`/`put` calls. -/
def Reachable (capacity : Int) (c : LFUCache) : Prop :=
  ∃ ops : List Op, run (LFUCache.init capacity) ops = some c

/-- A concrete reachable state used as a test vector: capacity 2, full,
keys 10 and 20 both at frequency 1, key 10 inserted first (so key 10 is
the eviction candidate).  Obtained by `put(10,5); put(20,6)`. -/
def cacheTwoFull : LFUCache :=
  { minf := 1, curSize := 2, maxSize := 2,
    nodeMap := [(10, ⟨10, 5, 1⟩), (20, ⟨20, 6, 1⟩)],
    listMap := [(1, [⟨20, 6, 1⟩, ⟨10, 5, 1⟩])] }

/-- A concrete reachable state used as a test vector: capacity 1 after
`put(1,0); get(1)` — the single entry was promoted to frequency 2, and
the emptied bucket for frequency 1 is still recorded in the bucket
index. -/
def cachePromoted : LFUCache :=
  { minf := 2, curSize := 1, maxSize := 1,
    nodeMap := [(1, ⟨1, 0, 2⟩)],
    listMap := [(1, []), (2, [⟨1, 0, 2⟩])] }

/-! ## Association list lemmas -/

theorem alookup_aset_self {α : Type} (m : List (Int × α)) (k : Int) (v : α) :
    alookup (aset m k v) k = some v := by
  induction m with
  | nil => simp [aset, alookup]
  | cons p rest ih =>
      by_cases h : k = p.1
      · simp [aset, h, alookup]
      · simp [aset, h, alookup, ih]

theorem alookup_aset_ne {α : Type} (m : List (Int × α)) (k k' : Int) (v : α)
    (h : k' ≠ k) : alookup (aset m k v) k' = alookup m k' := by
  induction m with
  | nil => simp [aset, alookup, h]
  | cons p rest ih =>
      by_cases hk : k = p.1
      · subst hk; simp [aset, alookup, h, if_neg (by exact fun hc => h hc)]
      · by_cases hk' : k' = p.1
        · simp [aset, hk, alookup, hk']
        · simp [aset, hk, alookup, hk', ih]

theorem alookup_eq_none_iff {α : Type} (m : List (Int × α)) (k : Int) :
    alookup m k = none ↔ k ∉ m.map Prod.fst := by
  induction m with
  | nil => simp [alookup]
  | cons p rest ih =>
      by_cases h : k = p.1
      · simp [alookup, h]
      · simp [alookup, h, ih]

theorem alookup_isSome_iff {α : Type} (m : List (Int × α)) (k : Int) :
    (alookup m k).isSome ↔ k ∈ m.map Prod.fst := by
  rcases h : alookup m k with _ | v
  · simpa [h] using (alookup_eq_none_iff m k).1 h
  · simp only [Option.isSome_some, true_iff]
    by_contra hmem
    rw [← alookup_eq_none_iff] at hmem
    rw [h] at hmem; cases hmem

theorem alookup_mem {α : Type} (m : List (Int × α)) (k : Int) (v : α)
    (h : alookup m k = some v) : (k, v) ∈ m := by
  induction m with
  | nil => simp [alookup] at h
  | cons p rest ih =>
      by_cases hk : k = p.1
      · subst hk
        simp [alookup] at h
        subst h
        exact List.mem_cons_self _ _
      · simp [alookup, hk] at h
        exact List.mem_cons_of_mem _ (ih h)

theorem keys_aset_mem {α : Type} (m : List (Int × α)) (k : Int) (v : α)
    (h : k ∈ m.map Prod.fst) : (aset m k v).map Prod.fst = m.map Prod.fst := by
  induction m with
  | nil => simp at h
  | cons p rest ih =>
      by_cases hk : k = p.1
      · subst hk; simp [aset]
      · have h2 : k ∈ rest.map Prod.fst := by
          simp only [List.map_cons, List.mem_cons] at h
          exact h.resolve_left hk
        simp [aset, hk, ih h2]

theorem keys_aset_not_mem {α : Type} (m : List (Int × α)) (k : Int) (v : α)
    (h : k ∉ m.map Prod.fst) :
    (aset m k v).map Prod.fst = m.map Prod.fst ++ [k] := by
  induction m with
  | nil => simp [aset]
  | cons p rest ih =>
      simp only [List.map_cons, List.mem_cons] at h
      push_neg at h
      simp [aset, h.1, ih h.2]

theorem nodup_keys_aset {α : Type} (m : List (Int × α)) (k : Int) (v : α)
    (h : (m.map Prod.fst).Nodup) : ((aset m k v).map Prod.fst).Nodup := by
  by_cases hm : k ∈ m.map Prod.fst
  · rw [keys_aset_mem m k v hm]; exact h
  · rw [keys_aset_not_mem m k v hm]
    refine h.append (List.nodup_singleton k) ?_
    intro a ha hb
    simp only [List.mem_singleton] at hb
    subst hb
    exact hm ha

theorem length_aset_mem {α : Type} (m : List (Int × α)) (k : Int) (v : α)
    (h : k ∈ m.map Prod.fst) : (aset m k v).length = m.length := by
  have := keys_aset_mem m k v h
  have h1 : ((aset m k v).map Prod.fst).length = (m.map Prod.fst).length := by rw [this]
  simpa using h1

theorem length_aset_not_mem {α : Type} (m : List (Int × α)) (k : Int) (v : α)
    (h : k ∉ m.map Prod.fst) : (aset m k v).length = m.length + 1 := by
  have := keys_aset_not_mem m k v h
  have h1 : ((aset m k v).map Prod.fst).length = (m.map Prod.fst ++ [k]).length := by rw [this]
  simpa using h1

theorem aerase_sublist {α : Type} (m : List (Int × α)) (k : Int) :
    (aerase m k).Sublist m := by
  induction m with
  | nil => simp [aerase]
  | cons p rest ih =>
      by_cases h : k = p.1
      · simp only [aerase, if_pos h]
        exact List.sublist_cons_self p rest
      · simpa [aerase, h] using List.Sublist.cons₂ p ih

theorem alookup_aerase_self {α : Type} (m : List (Int × α)) (k : Int)
    (h : (m.map Prod.fst).Nodup) : alookup (aerase m k) k = none := by
  induction m with
  | nil => simp [aerase, alookup]
  | cons p rest ih =>
      simp only [List.map_cons, List.nodup_cons] at h
      by_cases hk : k = p.1
      · subst hk
        simp only [aerase, if_pos rfl]
        rw [alookup_eq_none_iff]
        exact h.1
      · simp [aerase, hk, alookup, ih h.2]

theorem alookup_aerase_ne {α : Type} (m : List (Int × α)) (k k' : Int)
    (h : k' ≠ k) : alookup (aerase m k) k' = alookup m k' := by
  induction m with
  | nil => simp [aerase]
  | cons p rest ih =>
      by_cases hk : k = p.1
      · subst hk
        simp [aerase, alookup, fun hc => h hc]
      · by_cases hk' : k' = p.1
        · simp [aerase, hk, alookup, hk']
        · simp [aerase, hk, alookup, hk', ih]

theorem length_aerase_mem {α : Type} (m : List (Int × α)) (k : Int)
    (h : k ∈ m.map Prod.fst) : (aerase m k).length + 1 = m.length := by
  induction m with
  | nil => simp at h
  | cons p rest ih =>
      by_cases hk : k = p.1
      · simp [aerase, hk]
      · simp only [List.map_cons, List.mem_cons] at h
        rcases h with h | h
        · exact absurd h hk
        · simp [aerase, hk, ← ih h]

theorem nodup_keys_aerase {α : Type} (m : List (Int × α)) (k : Int)
    (h : (m.map Prod.fst).Nodup) : ((aerase m k).map Prod.fst).Nodup :=
  ((aerase_sublist m k).map Prod.fst).nodup h

/-! ## `removeKey` lemmas -/

theorem removeKey_sublist (b : List Node) (k : Int) :
    (removeKey b k).Sublist b := by
  induction b with
  | nil => simp [removeKey]
  | cons n rest ih =>
      by_cases h : n.key = k
      · simp only [removeKey, if_pos h]
        exact List.sublist_cons_self n rest
      · simpa [removeKey, h] using List.Sublist.cons₂ n ih

theorem mem_removeKey_of_ne (b : List Node) (k : Int) (n : Node)
    (hn : n ∈ b) (hne : n.key ≠ k) : n ∈ removeKey b k := by
  induction b with
  | nil => simp at hn
  | cons m rest ih =>
      rcases List.mem_cons.1 hn with h | h
      · subst h
        simp [removeKey, hne]
      · by_cases hm : m.key = k
        · simpa [removeKey, hm] using h
        · simpa [removeKey, hm] using Or.inr (ih h)

theorem key_ne_of_mem_removeKey (b : List Node) (k : Int) (n : Node)
    (hnd : (b.map Node.key).Nodup) (hn : n ∈ removeKey b k) : n.key ≠ k := by
  induction b with
  | nil => simp [removeKey] at hn
  | cons m rest ih =>
      simp only [List.map_cons, List.nodup_cons] at hnd
      by_cases hm : m.key = k
      · subst hm
        simp only [removeKey, if_pos rfl] at hn
        intro hc
        exact hnd.1 (by
          rw [← hc]
          exact List.mem_map_of_mem Node.key hn)
      · simp only [removeKey, if_neg hm] at hn
        rcases List.mem_cons.1 hn with h | h
        · subst h; exact hm
        · exact ih hnd.2 h

theorem length_removeKey (b : List Node) (k : Int)
    (h : k ∈ b.map Node.key) : (removeKey b k).length + 1 = b.length := by
  induction b with
  | nil => simp at h
  | cons m rest ih =>
      by_cases hm : m.key = k
      · simp [removeKey, hm]
      · simp only [List.map_cons, List.mem_cons] at h
        rcases h with h | h
        · exact absurd h.symm hm
        · simp [removeKey, hm, ← ih h]

theorem getLast?_decomp {α : Type} (b : List α) (e : α)
    (h : b.getLast? = some e) : b.dropLast ++ [e] = b := by
  induction b with
  | nil => simp at h
  | cons x rest ih =>
      cases rest with
      | nil =>
          simp only [List.getLast?_singleton, Option.some.injEq] at h
          simp [h]
      | cons y t =>
          rw [List.getLast?_cons_cons] at h
          have := ih h
          rw [List.dropLast_cons₂]
          simpa using this

theorem mem_of_getLast? {α : Type} (b : List α) (e : α)
    (h : b.getLast? = some e) : e ∈ b := by
  have := getLast?_decomp b e h
  rw [← this]
  simp

/-! ## The reachable-state invariant -/

/-- Well-formedness of a cache state: the key index and bucket index are
consistent (every mapped node sits in the bucket for its count, every
bucket node is registered under its key), keys are unique, `curSize`
counts the entries, and `minf` is a lower bound on the frequencies of all
non-empty buckets and itself has a non-empty bucket while the cache is
non-empty.  Note that empty buckets may be present in `listMap`: the
source never erases a bucket. -/
structure WF (c : LFUCache) : Prop where
  nodupN : (c.nodeMap.map Prod.fst).Nodup
  nodupL : (c.listMap.map Prod.fst).Nodup
  size_eq : c.curSize = c.nodeMap.length
  size_le : 0 ≤ c.maxSize → c.curSize ≤ c.maxSize
  node_key : ∀ k n, alookup c.nodeMap k = some n → n.key = k
  count_pos : ∀ k n, alookup c.nodeMap k = some n → 1 ≤ n.count
  node_in_bucket : ∀ k n, alookup c.nodeMap k = some n →
    ∃ b, alookup c.listMap n.count = some b ∧ n ∈ b
  bucket_count : ∀ f b, alookup c.listMap f = some b → ∀ n ∈ b, n.count = f
  bucket_in_map : ∀ f b, alookup c.listMap f = some b → ∀ n ∈ b,
    alookup c.nodeMap n.key = some n
  bucket_nodup : ∀ f b, alookup c.listMap f = some b → (b.map Node.key).Nodup
  minf_le : ∀ f b, alookup c.listMap f = some b → b ≠ [] → c.minf ≤ f
  minf_mem : c.nodeMap ≠ [] → ∃ b, alookup c.listMap c.minf = some b ∧ b ≠ []

theorem init_WF (capacity : Int) : WF (LFUCache.init capacity) := by
  constructor <;> simp [LFUCache.init, alookup]

theorem aset_ne_nil {α : Type} (m : List (Int × α)) (k : Int) (v : α) :
    aset m k v ≠ [] := by
  cases m with
  | nil => simp [aset]
  | cons p rest => by_cases h : k = p.1 <;> simp [aset, h]

theorem ne_nil_of_alookup {α : Type} (m : List (Int × α)) (k : Int) (v : α)
    (h : alookup m k = some v) : m ≠ [] := by
  intro hc; subst hc; simp [alookup] at h

theorem updateFreqList_spec (c : LFUCache) (node node₀ : Node) (hWF : WF c)
    (hlook : alookup c.nodeMap node.key = some node₀)
    (hcount : node₀.count = node.count) :
    ∃ c', c.updateFreqList node = some c' ∧ WF c' ∧
      c'.curSize = c.curSize ∧ c'.maxSize = c.maxSize ∧
      c'.nodeMap.map Prod.fst = c.nodeMap.map Prod.fst ∧
      alookup c'.nodeMap node.key = some { node with count := node.count + 1 } ∧
      (∀ k, k ≠ node.key → alookup c'.nodeMap k = alookup c.nodeMap k) := by
  obtain ⟨b, hbuck, hmem₀⟩ := hWF.node_in_bucket node.key node₀ hlook
  rw [hcount] at hbuck
  have hkey₀ : node₀.key = node.key := hWF.node_key _ _ hlook
  have hmem : node.key ∈ b.map Node.key := by
    rw [← hkey₀]; exact List.mem_map_of_mem Node.key hmem₀
  have hcount_pos : 1 ≤ node.count := by
    have := hWF.count_pos _ _ hlook; omega
  have hb_count : ∀ n ∈ b, n.count = node.count := hWF.bucket_count _ _ hbuck
  have hb_map : ∀ n ∈ b, alookup c.nodeMap n.key = some n := hWF.bucket_in_map _ _ hbuck
  have hb_nodup : (b.map Node.key).Nodup := hWF.bucket_nodup _ _ hbuck
  have hminf_f : c.minf ≤ node.count :=
    hWF.minf_le _ _ hbuck (List.ne_nil_of_mem hmem₀)
  have hhigher_count : ∀ n ∈ (alookup c.listMap (node.count + 1)).getD [],
      n.count = node.count + 1 := by
    rcases hh : alookup c.listMap (node.count + 1) with _ | hb
    · simp
    · simpa using hWF.bucket_count _ _ hh
  have hhigher_map : ∀ n ∈ (alookup c.listMap (node.count + 1)).getD [],
      alookup c.nodeMap n.key = some n := by
    rcases hh : alookup c.listMap (node.count + 1) with _ | hb
    · simp
    · simpa using hWF.bucket_in_map _ _ hh
  have hhigher_nodup :
      (((alookup c.listMap (node.count + 1)).getD []).map Node.key).Nodup := by
    rcases hh : alookup c.listMap (node.count + 1) with _ | hb
    · simp
    · simpa using hWF.bucket_nodup _ _ hh
  have hkey_not_higher :
      node.key ∉ ((alookup c.listMap (node.count + 1)).getD []).map Node.key := by
    intro hc
    obtain ⟨n, hn, hnk⟩ := List.mem_map.1 hc
    have h1 := hhigher_map n hn
    rw [hnk, hlook] at h1
    have h2 := hhigher_count n hn
    have h3 : node₀.count = node.count + 1 := by
      rw [show node₀ = n from Option.some.inj h1] at hcount ⊢
      exact h2
    omega
  have hb'_sub : ∀ n ∈ removeKey b node.key, n ∈ b :=
    fun n hn => (removeKey_sublist b node.key).subset hn
  have hb'_ne : ∀ n ∈ removeKey b node.key, n.key ≠ node.key :=
    fun n hn => key_ne_of_mem_removeKey b node.key n hb_nodup hn
  have hkeymem : node.key ∈ c.nodeMap.map Prod.fst := by
    rw [← alookup_isSome_iff]; simp [hlook]
  have hfne : node.count ≠ node.count + 1 := by omega
  have hstep : c.updateFreqList node = some
      { c with
          minf := if node.count = c.minf ∧ removeKey b node.key = [] then
            c.minf + 1 else c.minf,
          listMap := aset (aset c.listMap node.count (removeKey b node.key))
            (node.count + 1)
            ({ node with count := node.count + 1 } ::
              (alookup c.listMap (node.count + 1)).getD []),
          nodeMap := aset c.nodeMap node.key
            { node with count := node.count + 1 } } := by
    unfold LFUCache.updateFreqList
    rw [hbuck]
    simp only [hmem, if_true]
  refine ⟨_, hstep, ?_, rfl, rfl,
    keys_aset_mem _ _ _ hkeymem, alookup_aset_self _ _ _,
    fun k hk => alookup_aset_ne _ _ _ _ hk⟩
  -- now the well-formedness of the new state
  refine { nodupN := ?_, nodupL := ?_, size_eq := ?_, size_le := ?_,
           node_key := ?_, count_pos := ?_, node_in_bucket := ?_,
           bucket_count := ?_, bucket_in_map := ?_, bucket_nodup := ?_,
           minf_le := ?_, minf_mem := ?_ }
  · exact nodup_keys_aset _ _ _ hWF.nodupN
  · exact nodup_keys_aset _ _ _ (nodup_keys_aset _ _ _ hWF.nodupL)
  · show c.curSize = (aset c.nodeMap node.key _).length
    rw [length_aset_mem _ _ _ hkeymem]
    exact hWF.size_eq
  · exact hWF.size_le
  · intro k n h
    by_cases hk : k = node.key
    · subst hk
      rw [alookup_aset_self] at h
      cases h; rfl
    · rw [alookup_aset_ne _ _ _ _ hk] at h
      exact hWF.node_key _ _ h
  · intro k n h
    by_cases hk : k = node.key
    · subst hk
      rw [alookup_aset_self] at h
      cases h; simp; omega
    · rw [alookup_aset_ne _ _ _ _ hk] at h
      exact hWF.count_pos _ _ h
  · intro k n h
    show ∃ bg, alookup (aset (aset c.listMap node.count (removeKey b node.key))
      (node.count + 1) _) n.count = some bg ∧ n ∈ bg
    by_cases hk : k = node.key
    · subst hk
      rw [alookup_aset_self] at h
      cases h
      exact ⟨{ node with count := node.count + 1 } ::
          (alookup c.listMap (node.count + 1)).getD [],
        alookup_aset_self _ _ _, List.mem_cons_self _ _⟩
    · rw [alookup_aset_ne _ _ _ _ hk] at h
      obtain ⟨bg, hbg, hnbg⟩ := hWF.node_in_bucket _ _ h
      have hnkey : n.key ≠ node.key := by
        rw [hWF.node_key _ _ h]; exact hk
      by_cases hc1 : n.count = node.count + 1
      · rw [hc1] at hbg ⊢
        rw [alookup_aset_self]
        refine ⟨_, rfl, ?_⟩
        right
        rw [hbg]
        simpa using hnbg
      · rw [alookup_aset_ne _ _ _ _ hc1]
        by_cases hc2 : n.count = node.count
        · rw [hc2] at hbg ⊢
          rw [alookup_aset_self]
          rw [hbuck] at hbg
          cases hbg
          exact ⟨_, rfl, mem_removeKey_of_ne _ _ _ hnbg hnkey⟩
        · rw [alookup_aset_ne _ _ _ _ hc2]
          exact ⟨bg, hbg, hnbg⟩
  · intro g bg hg n hn
    by_cases hg1 : g = node.count + 1
    · subst hg1
      rw [alookup_aset_self] at hg
      cases hg
      rcases List.mem_cons.1 hn with h | h
      · subst h; rfl
      · exact hhigher_count n h
    · rw [alookup_aset_ne _ _ _ _ hg1] at hg
      by_cases hg2 : g = node.count
      · subst hg2
        rw [alookup_aset_self] at hg
        cases hg
        exact hb_count n (hb'_sub n hn)
      · rw [alookup_aset_ne _ _ _ _ hg2] at hg
        exact hWF.bucket_count _ _ hg n hn
  · intro g bg hg n hn
    show alookup (aset c.nodeMap node.key _) n.key = some _
    by_cases hg1 : g = node.count + 1
    · subst hg1
      rw [alookup_aset_self] at hg
      cases hg
      rcases List.mem_cons.1 hn with h | h
      · subst h
        show alookup _ node.key = _
        rw [alookup_aset_self]
      · have hnkey : n.key ≠ node.key := by
          intro hc
          exact hkey_not_higher (hc ▸ List.mem_map_of_mem Node.key h)
        rw [alookup_aset_ne _ _ _ _ hnkey]
        exact hhigher_map n h
    · rw [alookup_aset_ne _ _ _ _ hg1] at hg
      by_cases hg2 : g = node.count
      · subst hg2
        rw [alookup_aset_self] at hg
        cases hg
        have hnkey : n.key ≠ node.key := hb'_ne n hn
        rw [alookup_aset_ne _ _ _ _ hnkey]
        exact hb_map n (hb'_sub n hn)
      · rw [alookup_aset_ne _ _ _ _ hg2] at hg
        have hold := hWF.bucket_in_map _ _ hg n hn
        have hnkey : n.key ≠ node.key := by
          intro hc
          rw [hc, hlook] at hold
          have h4 : node₀ = n := Option.some.inj hold
          have h5 : n.count = g := hWF.bucket_count _ _ hg n hn
          rw [← h4, hcount] at h5
          exact hg2 h5.symm
        rw [alookup_aset_ne _ _ _ _ hnkey]
        exact hold
  · intro g bg hg
    by_cases hg1 : g = node.count + 1
    · subst hg1
      rw [alookup_aset_self] at hg
      cases hg
      rw [List.map_cons, List.nodup_cons]
      exact ⟨hkey_not_higher, hhigher_nodup⟩
    · rw [alookup_aset_ne _ _ _ _ hg1] at hg
      by_cases hg2 : g = node.count
      · subst hg2
        rw [alookup_aset_self] at hg
        cases hg
        exact ((removeKey_sublist b node.key).map Node.key).nodup hb_nodup
      · rw [alookup_aset_ne _ _ _ _ hg2] at hg
        exact hWF.bucket_nodup _ _ hg
  · intro g bg hg hne
    show (if node.count = c.minf ∧ removeKey b node.key = [] then
      c.minf + 1 else c.minf) ≤ g
    by_cases hcond : node.count = c.minf ∧ removeKey b node.key = []
    · rw [if_pos hcond]
      by_cases hg1 : g = node.count + 1
      · omega
      · rw [alookup_aset_ne _ _ _ _ hg1] at hg
        by_cases hg2 : g = node.count
        · subst hg2
          rw [alookup_aset_self] at hg
          cases hg
          exact absurd hcond.2 hne
        · rw [alookup_aset_ne _ _ _ _ hg2] at hg
          have := hWF.minf_le _ _ hg hne
          omega
    · rw [if_neg hcond]
      by_cases hg1 : g = node.count + 1
      · omega
      · rw [alookup_aset_ne _ _ _ _ hg1] at hg
        by_cases hg2 : g = node.count
        · omega
        · rw [alookup_aset_ne _ _ _ _ hg2] at hg
          exact hWF.minf_le _ _ hg hne
  · intro _
    by_cases hcond : node.count = c.minf ∧ removeKey b node.key = []
    · show ∃ bb, alookup (aset (aset c.listMap node.count (removeKey b node.key))
          (node.count + 1)
          ({ node with count := node.count + 1 } ::
            (alookup c.listMap (node.count + 1)).getD []))
        (if node.count = c.minf ∧ removeKey b node.key = [] then c.minf + 1 else c.minf)
        = some bb ∧ bb ≠ []
      rw [if_pos hcond, ← hcond.1]
      exact ⟨_, alookup_aset_self _ _ _, by simp⟩
    · show ∃ bb, alookup _ (if node.count = c.minf ∧ removeKey b node.key = [] then
        c.minf + 1 else c.minf) = some bb ∧ bb ≠ []
      rw [if_neg hcond]
      by_cases hm1 : c.minf = node.count
      · have hb' : removeKey b node.key ≠ [] := by
          intro hc
          exact hcond ⟨hm1.symm, hc⟩
        refine ⟨removeKey b node.key, ?_, hb'⟩
        rw [hm1, alookup_aset_ne _ _ _ _ hfne, alookup_aset_self]
      · have hm2 : c.minf ≠ node.count + 1 := by omega
        rw [alookup_aset_ne _ _ _ _ hm2, alookup_aset_ne _ _ _ _ hm1]
        exact hWF.minf_mem (ne_nil_of_alookup _ _ _ hlook)

theorem getLast?_isSome_of_ne_nil {α : Type} (b : List α) (h : b ≠ []) :
    ∃ e, b.getLast? = some e := by
  induction b with
  | nil => exact absurd rfl h
  | cons x rest ih =>
      cases rest with
      | nil => exact ⟨x, rfl⟩
      | cons y t =>
          obtain ⟨e, he⟩ := ih (by simp)
          exact ⟨e, by rw [List.getLast?_cons_cons]; exact he⟩

theorem mem_dropLast_of_getLast? {α : Type} (b : List α) (e x : α)
    (he : b.getLast? = some e) (hx : x ∈ b.dropLast) : x ∈ b := by
  rw [← getLast?_decomp b e he]
  exact List.mem_append_left _ hx

theorem mem_dropLast_or_eq {α : Type} (b : List α) (e x : α)
    (he : b.getLast? = some e) (hx : x ∈ b) : x ∈ b.dropLast ∨ x = e := by
  rw [← getLast?_decomp b e he] at hx
  rcases List.mem_append.1 hx with h | h
  · exact Or.inl h
  · simp only [List.mem_singleton] at h
    exact Or.inr h

theorem getLast_key_not_mem_dropLast (b : List Node) (e : Node)
    (he : b.getLast? = some e) (hnd : (b.map Node.key).Nodup) :
    e.key ∉ b.dropLast.map Node.key := by
  have hd := getLast?_decomp b e he
  rw [← hd] at hnd
  rw [List.map_append] at hnd
  have := List.disjoint_of_nodup_append hnd
  intro hc
  exact this hc (by simp)

/-- The insertion step at the end of `put`: prepend a fresh node with
count 1 to `bucket(1)`, register it, increment `curSize`, set `minf = 1`.
The `minf` invariants of the pre-state are not needed (the step
re-establishes them), which is what makes the stale `minf` of the
post-eviction intermediate state harmless. -/
theorem insert_step_WF (c1 : LFUCache) (k v : Int)
    (h1 : (c1.nodeMap.map Prod.fst).Nodup)
    (h2 : (c1.listMap.map Prod.fst).Nodup)
    (h3 : c1.curSize = c1.nodeMap.length)
    (h4 : 0 ≤ c1.maxSize → c1.curSize + 1 ≤ c1.maxSize)
    (h5 : ∀ k' n, alookup c1.nodeMap k' = some n → n.key = k')
    (h6 : ∀ k' n, alookup c1.nodeMap k' = some n → 1 ≤ n.count)
    (h7 : ∀ k' n, alookup c1.nodeMap k' = some n →
      ∃ b, alookup c1.listMap n.count = some b ∧ n ∈ b)
    (h8 : ∀ f b, alookup c1.listMap f = some b → ∀ n ∈ b, n.count = f)
    (h9 : ∀ f b, alookup c1.listMap f = some b → ∀ n ∈ b,
      alookup c1.nodeMap n.key = some n)
    (h10 : ∀ f b, alookup c1.listMap f = some b → (b.map Node.key).Nodup)
    (hlook1 : alookup c1.nodeMap k = none) :
    WF { c1 with
          minf := 1,
          listMap := aset c1.listMap 1
            ((⟨k, v, 1⟩ : Node) :: (alookup c1.listMap 1).getD []),
          nodeMap := aset c1.nodeMap k ⟨k, v, 1⟩,
          curSize := c1.curSize + 1 } := by
  have hmin_count : ∀ n ∈ (alookup c1.listMap 1).getD [], n.count = 1 := by
    rcases hh : alookup c1.listMap 1 with _ | hb
    · simp
    · simpa using h8 _ _ hh
  have hmin_map : ∀ n ∈ (alookup c1.listMap 1).getD [],
      alookup c1.nodeMap n.key = some n := by
    rcases hh : alookup c1.listMap 1 with _ | hb
    · simp
    · simpa using h9 _ _ hh
  have hmin_nodup : (((alookup c1.listMap 1).getD []).map Node.key).Nodup := by
    rcases hh : alookup c1.listMap 1 with _ | hb
    · simp
    · simpa using h10 _ _ hh
  have hknotin : ∀ n ∈ (alookup c1.listMap 1).getD [], n.key ≠ k := by
    intro n hn hc
    have := hmin_map n hn
    rw [hc, hlook1] at this
    cases this
  have hkeynot : k ∉ c1.nodeMap.map Prod.fst := (alookup_eq_none_iff _ _).1 hlook1
  refine { nodupN := ?_, nodupL := ?_, size_eq := ?_, size_le := ?_,
           node_key := ?_, count_pos := ?_, node_in_bucket := ?_,
           bucket_count := ?_, bucket_in_map := ?_, bucket_nodup := ?_,
           minf_le := ?_, minf_mem := ?_ }
  · exact nodup_keys_aset _ _ _ h1
  · exact nodup_keys_aset _ _ _ h2
  · show c1.curSize + 1 = (aset c1.nodeMap k _).length
    rw [length_aset_not_mem _ _ _ hkeynot]
    push_cast
    omega
  · exact h4
  · intro k' n h
    by_cases hk : k' = k
    · subst hk
      rw [alookup_aset_self] at h
      cases h; rfl
    · rw [alookup_aset_ne _ _ _ _ hk] at h
      exact h5 _ _ h
  · intro k' n h
    by_cases hk : k' = k
    · subst hk
      rw [alookup_aset_self] at h
      cases h; simp
    · rw [alookup_aset_ne _ _ _ _ hk] at h
      exact h6 _ _ h
  · intro k' n h
    by_cases hk : k' = k
    · subst hk
      rw [alookup_aset_self] at h
      cases h
      exact ⟨_, alookup_aset_self _ _ _, List.mem_cons_self _ _⟩
    · rw [alookup_aset_ne _ _ _ _ hk] at h
      obtain ⟨bg, hbg, hnbg⟩ := h7 _ _ h
      by_cases hc1 : n.count = 1
      · rw [hc1] at hbg ⊢
        rw [hbg] at hmin_count hmin_map hknotin ⊢
        refine ⟨_, alookup_aset_self _ _ _, ?_⟩
        right
        simpa using hnbg
      · rw [alookup_aset_ne _ _ _ _ hc1]
        exact ⟨bg, hbg, hnbg⟩
  · intro g bg hg n hn
    by_cases hg1 : g = 1
    · subst hg1
      rw [alookup_aset_self] at hg
      cases hg
      rcases List.mem_cons.1 hn with h | h
      · subst h; rfl
      · exact hmin_count n h
    · rw [alookup_aset_ne _ _ _ _ hg1] at hg
      exact h8 _ _ hg n hn
  · intro g bg hg n hn
    show alookup (aset c1.nodeMap k _) n.key = some _
    by_cases hg1 : g = 1
    · subst hg1
      rw [alookup_aset_self] at hg
      cases hg
      rcases List.mem_cons.1 hn with h | h
      · subst h
        show alookup _ k = _
        rw [alookup_aset_self]
      · rw [alookup_aset_ne _ _ _ _ (hknotin n h)]
        exact hmin_map n h
    · rw [alookup_aset_ne _ _ _ _ hg1] at hg
      have hold := h9 _ _ hg n hn
      have hnkey : n.key ≠ k := by
        intro hc
        rw [hc, hlook1] at hold
        cases hold
      rw [alookup_aset_ne _ _ _ _ hnkey]
      exact hold
  · intro g bg hg
    by_cases hg1 : g = 1
    · subst hg1
      rw [alookup_aset_self] at hg
      cases hg
      rw [List.map_cons, List.nodup_cons]
      refine ⟨?_, hmin_nodup⟩
      intro hc
      obtain ⟨n, hn, hnk⟩ := List.mem_map.1 hc
      exact hknotin n hn hnk
    · rw [alookup_aset_ne _ _ _ _ hg1] at hg
      exact h10 _ _ hg
  · intro g bg hg hne
    show (1 : Int) ≤ g
    by_cases hg1 : g = 1
    · omega
    · rw [alookup_aset_ne _ _ _ _ hg1] at hg
      obtain ⟨n, hn⟩ := List.exists_mem_of_ne_nil bg hne
      have := h8 _ _ hg n hn
      have := h6 _ _ (h9 _ _ hg n hn)
      omega
  · intro _
    exact ⟨_, alookup_aset_self _ _ _, by simp⟩

theorem put_existing_spec (c : LFUCache) (k v : Int) (n : Node) (hWF : WF c)
    (hmax : c.maxSize ≠ 0) (hlook : alookup c.nodeMap k = some n) :
    ∃ c', c.put k v = some c' ∧ WF c' ∧
      c'.curSize = c.curSize ∧ c'.maxSize = c.maxSize ∧
      c'.nodeMap.map Prod.fst = c.nodeMap.map Prod.fst ∧
      alookup c'.nodeMap k = some ⟨k, v, n.count + 1⟩ ∧
      (∀ k', k' ≠ k → alookup c'.nodeMap k' = alookup c.nodeMap k') := by
  have hk : n.key = k := hWF.node_key _ _ hlook
  have hlook' : alookup c.nodeMap ({ n with val := v } : Node).key = some n := by
    show alookup c.nodeMap n.key = some n
    rw [hk]; exact hlook
  obtain ⟨c', hstep, hWF', hcur, hmax', hkeys, hself, hother⟩ :=
    updateFreqList_spec c { n with val := v } n hWF hlook' rfl
  refine ⟨c', ?_, hWF', hcur, hmax', hkeys, ?_, ?_⟩
  · unfold LFUCache.put
    rw [if_neg hmax, hlook]
    exact hstep
  · have hres : alookup c'.nodeMap n.key = some ⟨n.key, v, n.count + 1⟩ := hself
    rw [hk] at hres
    exact hres
  · intro k' hk'
    have hk'2 : k' ≠ ({ n with val := v } : Node).key := by
      show k' ≠ n.key
      rw [hk]; exact hk'
    exact hother k' hk'2

theorem put_no_evict_spec (c : LFUCache) (k v : Int) (hWF : WF c)
    (hmax : c.maxSize ≠ 0) (hlook : alookup c.nodeMap k = none)
    (hsize : c.curSize ≠ c.maxSize) :
    ∃ c', c.put k v = some c' ∧ WF c' ∧
      c'.curSize = c.curSize + 1 ∧ c'.maxSize = c.maxSize ∧ c'.minf = 1 ∧
      alookup c'.nodeMap k = some ⟨k, v, 1⟩ ∧
      (∀ k', k' ≠ k → alookup c'.nodeMap k' = alookup c.nodeMap k') := by
  have hput : c.put k v = some { c with
      minf := 1,
      listMap := aset c.listMap 1
        ((⟨k, v, 1⟩ : Node) :: (alookup c.listMap 1).getD []),
      nodeMap := aset c.nodeMap k ⟨k, v, 1⟩,
      curSize := c.curSize + 1 } := by
    unfold LFUCache.put
    rw [if_neg hmax, hlook, if_neg hsize]
  refine ⟨_, hput, ?_, rfl, rfl, rfl, alookup_aset_self _ _ _,
    fun k' hk' => alookup_aset_ne _ _ _ _ hk'⟩
  exact insert_step_WF c k v hWF.nodupN hWF.nodupL hWF.size_eq
    (by intro h0; have := hWF.size_le h0; omega)
    hWF.node_key hWF.count_pos hWF.node_in_bucket hWF.bucket_count
    hWF.bucket_in_map hWF.bucket_nodup hlook

theorem put_evict_spec (c : LFUCache) (k v : Int) (hWF : WF c)
    (hmax : c.maxSize ≠ 0) (hlook : alookup c.nodeMap k = none)
    (hsize : c.curSize = c.maxSize) :
    ∃ b e c', alookup c.listMap c.minf = some b ∧ b.getLast? = some e ∧
      alookup c.nodeMap e.key = some e ∧ e.count = c.minf ∧
      (∀ k' n, alookup c.nodeMap k' = some n → c.minf ≤ n.count) ∧
      c.put k v = some c' ∧ WF c' ∧
      c'.curSize = c.curSize ∧ c'.maxSize = c.maxSize ∧ c'.minf = 1 ∧
      e.key ≠ k ∧
      alookup c'.nodeMap e.key = none ∧
      alookup c'.nodeMap k = some ⟨k, v, 1⟩ ∧
      (∀ k', k' ≠ k → k' ≠ e.key →
        alookup c'.nodeMap k' = alookup c.nodeMap k') ∧
      (∀ b', alookup c'.listMap c.minf = some b' → e.key ∉ b'.map Node.key) := by
  have hne : c.nodeMap ≠ [] := by
    intro hc
    apply hmax
    have h0 := hWF.size_eq
    rw [hc] at h0
    simp at h0
    omega
  obtain ⟨b, hb, hbne⟩ := hWF.minf_mem hne
  obtain ⟨e, he⟩ := getLast?_isSome_of_ne_nil b hbne
  have heb : e ∈ b := mem_of_getLast? b e he
  have hemap : alookup c.nodeMap e.key = some e := hWF.bucket_in_map _ _ hb e heb
  have hecount : e.count = c.minf := hWF.bucket_count _ _ hb e heb
  have hek : e.key ≠ k := by
    intro hc
    rw [hc, hlook] at hemap
    cases hemap
  have hekey : e.key ∈ c.nodeMap.map Prod.fst := by
    rw [← alookup_isSome_iff]; simp [hemap]
  have hbnodup := hWF.bucket_nodup _ _ hb
  have heknotdrop : e.key ∉ b.dropLast.map Node.key :=
    getLast_key_not_mem_dropLast b e he hbnodup
  have hput : c.put k v = some
      { { c with
            nodeMap := aerase c.nodeMap e.key,
            listMap := aset c.listMap c.minf b.dropLast,
            curSize := c.curSize - 1 } with
          minf := 1,
          listMap := aset (aset c.listMap c.minf b.dropLast) 1
            ((⟨k, v, 1⟩ : Node) ::
              (alookup (aset c.listMap c.minf b.dropLast) 1).getD []),
          nodeMap := aset (aerase c.nodeMap e.key) k ⟨k, v, 1⟩,
          curSize := (c.curSize - 1) + 1 } := by
    unfold LFUCache.put
    rw [if_neg hmax, hlook, if_pos hsize, hb]
    dsimp only
    rw [he]
  have hkne : (k : Int) ≠ e.key := fun hc => hek hc.symm
  have hlook1 : alookup (aerase c.nodeMap e.key) k = none := by
    rw [alookup_aerase_ne _ _ _ hkne]
    exact hlook
  refine ⟨b, e, _, hb, he, hemap, hecount, ?_, hput, ?_, ?_, rfl, rfl, hek,
    ?_, alookup_aset_self _ _ _, ?_, ?_⟩
  · intro k' n h
    obtain ⟨bg, hbg, hnbg⟩ := hWF.node_in_bucket _ _ h
    exact hWF.minf_le _ _ hbg (List.ne_nil_of_mem hnbg)
  · -- well-formedness, via the insertion helper applied to the evicted state
    exact insert_step_WF
      { c with
          nodeMap := aerase c.nodeMap e.key,
          listMap := aset c.listMap c.minf b.dropLast,
          curSize := c.curSize - 1 } k v
      (nodup_keys_aerase _ _ hWF.nodupN)
      (nodup_keys_aset _ _ _ hWF.nodupL)
      (by
        show c.curSize - 1 = ((aerase c.nodeMap e.key).length : Int)
        have h1 := length_aerase_mem c.nodeMap e.key hekey
        have h2 := hWF.size_eq
        omega)
      (by
        intro _
        show (c.curSize - 1) + 1 ≤ c.maxSize
        omega)
      (by
        intro k' n h
        by_cases hk : k' = e.key
        · rw [hk, alookup_aerase_self _ _ hWF.nodupN] at h; cases h
        · rw [alookup_aerase_ne _ _ _ hk] at h
          exact hWF.node_key _ _ h)
      (by
        intro k' n h
        by_cases hk : k' = e.key
        · rw [hk, alookup_aerase_self _ _ hWF.nodupN] at h; cases h
        · rw [alookup_aerase_ne _ _ _ hk] at h
          exact hWF.count_pos _ _ h)
      (by
        intro k' n h
        by_cases hk : k' = e.key
        · rw [hk, alookup_aerase_self _ _ hWF.nodupN] at h; cases h
        · rw [alookup_aerase_ne _ _ _ hk] at h
          obtain ⟨bg, hbg, hnbg⟩ := hWF.node_in_bucket _ _ h
          have hnkey : n.key = k' := hWF.node_key _ _ h
          by_cases hc1 : n.count = c.minf
          · rw [hc1] at hbg ⊢
            rw [hb] at hbg
            cases hbg
            refine ⟨_, alookup_aset_self _ _ _, ?_⟩
            rcases mem_dropLast_or_eq b e n he hnbg with h2 | h2
            · exact h2
            · subst h2
              exact absurd hnkey.symm hk
          · rw [alookup_aset_ne _ _ _ _ hc1]
            exact ⟨bg, hbg, hnbg⟩)
      (by
        intro f bb hf n hn
        by_cases hfm : f = c.minf
        · subst hfm
          rw [alookup_aset_self] at hf
          cases hf
          exact hWF.bucket_count _ _ hb n (mem_dropLast_of_getLast? b e n he hn)
        · rw [alookup_aset_ne _ _ _ _ hfm] at hf
          exact hWF.bucket_count _ _ hf n hn)
      (by
        intro f bb hf n hn
        by_cases hfm : f = c.minf
        · subst hfm
          rw [alookup_aset_self] at hf
          cases hf
          have hnb : n ∈ b := mem_dropLast_of_getLast? b e n he hn
          have hnkey : n.key ≠ e.key := by
            intro hc
            apply heknotdrop
            rw [← hc]
            exact List.mem_map_of_mem Node.key hn
          rw [alookup_aerase_ne _ _ _ hnkey]
          exact hWF.bucket_in_map _ _ hb n hnb
        · rw [alookup_aset_ne _ _ _ _ hfm] at hf
          have hold := hWF.bucket_in_map _ _ hf n hn
          have hnkey : n.key ≠ e.key := by
            intro hc
            rw [hc, hemap] at hold
            have h4 : e = n := Option.some.inj hold
            have h5 : n.count = f := hWF.bucket_count _ _ hf n hn
            rw [← h4, hecount] at h5
            exact hfm h5.symm
          rw [alookup_aerase_ne _ _ _ hnkey]
          exact hold)
      (by
        intro f bb hf
        by_cases hfm : f = c.minf
        · subst hfm
          rw [alookup_aset_self] at hf
          cases hf
          exact ((List.dropLast_sublist b).map Node.key).nodup hbnodup
        · rw [alookup_aset_ne _ _ _ _ hfm] at hf
          exact hWF.bucket_nodup _ _ hf)
      hlook1
  · show (c.curSize - 1) + 1 = c.curSize
    omega
  · show alookup (aset (aerase c.nodeMap e.key) k _) e.key = none
    rw [alookup_aset_ne _ _ _ _ hek, alookup_aerase_self _ _ hWF.nodupN]
  · intro k' hk' hke
    show alookup (aset (aerase c.nodeMap e.key) k _) k' = alookup c.nodeMap k'
    rw [alookup_aset_ne _ _ _ _ hk', alookup_aerase_ne _ _ _ hke]
  · intro b' hb'
    by_cases hm1 : c.minf = 1
    · rw [hm1] at hb'
      rw [alookup_aset_self] at hb'
      cases hb'
      rw [alookup_aset_self]
      simp only [Option.getD_some, List.map_cons, List.mem_cons]
      push_neg
      constructor
      · exact hek
      · exact heknotdrop
    · show e.key ∉ List.map Node.key b'
      rw [alookup_aset_ne _ _ _ _ hm1, alookup_aset_self] at hb'
      cases hb'
      exact heknotdrop

theorem get_spec (c : LFUCache) (k : Int) (hWF : WF c) :
    ∃ r c', c.get k = some (r, c') ∧ WF c' ∧
      c'.curSize = c.curSize ∧ c'.maxSize = c.maxSize ∧
      c'.nodeMap.map Prod.fst = c.nodeMap.map Prod.fst ∧
      (alookup c.nodeMap k = none → r = -1 ∧ c' = c) ∧
      (∀ n, alookup c.nodeMap k = some n → r = n.val ∧
        alookup c'.nodeMap k = some { n with count := n.count + 1 } ∧
        (∀ k', k' ≠ k → alookup c'.nodeMap k' = alookup c.nodeMap k')) := by
  rcases Option.eq_none_or_eq_some (alookup c.nodeMap k) with hlook | ⟨n, hlook⟩
  · refine ⟨-1, c, ?_, hWF, rfl, rfl, rfl, fun _ => ⟨rfl, rfl⟩, ?_⟩
    · unfold LFUCache.get
      rw [hlook]
    · intro n hn
      rw [hlook] at hn
      cases hn
  · have hk : n.key = k := hWF.node_key _ _ hlook
    have hlook' : alookup c.nodeMap n.key = some n := by rw [hk]; exact hlook
    obtain ⟨c', hstep, hWF', hcur, hmax', hkeys, hself, hother⟩ :=
      updateFreqList_spec c n n hWF hlook' rfl
    refine ⟨n.val, c', ?_, hWF', hcur, hmax', hkeys, ?_, ?_⟩
    · unfold LFUCache.get
      rw [hlook]
      dsimp only
      rw [hstep]
    · intro hc
      rw [hlook] at hc
      cases hc
    · intro n0 hn0
      rw [hlook] at hn0
      cases hn0
      refine ⟨rfl, ?_, ?_⟩
      · have hres := hself
        simp only [hk] at hres ⊢
        exact hres
      · intro k' hk'
        refine hother k' ?_
        rw [hk]
        exact hk'

theorem put_total (c : LFUCache) (k v : Int) (hWF : WF c) :
    ∃ c', c.put k v = some c' ∧ WF c' := by
  by_cases hmax : c.maxSize = 0
  · refine ⟨c, ?_, hWF⟩
    unfold LFUCache.put
    rw [if_pos hmax]
  · rcases hlook : alookup c.nodeMap k with _ | n
    · by_cases hsize : c.curSize = c.maxSize
      · obtain ⟨b, e, c', _, _, _, _, _, hput, hWF', _⟩ :=
          put_evict_spec c k v hWF hmax hlook hsize
        exact ⟨c', hput, hWF'⟩
      · obtain ⟨c', hput, hWF', _⟩ := put_no_evict_spec c k v hWF hmax hlook hsize
        exact ⟨c', hput, hWF'⟩
    · obtain ⟨c', hput, hWF', _⟩ := put_existing_spec c k v n hWF hmax hlook
      exact ⟨c', hput, hWF'⟩

theorem step_total (c : LFUCache) (op : Op) (hWF : WF c) :
    ∃ c', step c op = some c' ∧ WF c' := by
  cases op with
  | get k =>
      obtain ⟨r, c', hget, hWF', _⟩ := get_spec c k hWF
      exact ⟨c', by simp [step, hget], hWF'⟩
  | put k v =>
      obtain ⟨c', hput, hWF'⟩ := put_total c k v hWF
      exact ⟨c', by simp [step, hput], hWF'⟩

theorem run_total (ops : List Op) : ∀ c : LFUCache, WF c →
    ∃ c', run c ops = some c' ∧ WF c' := by
  induction ops with
  | nil => intro c hWF; exact ⟨c, rfl, hWF⟩
  | cons op rest ih =>
      intro c hWF
      obtain ⟨c1, hstep, hWF1⟩ := step_total c op hWF
      obtain ⟨c', hrun, hWF'⟩ := ih c1 hWF1
      refine ⟨c', ?_, hWF'⟩
      rw [run, hstep]
      exact hrun

theorem run_WF (ops : List Op) : ∀ c d : LFUCache, WF c →
    run c ops = some d → WF d := by
  induction ops with
  | nil =>
      intro c d hWF h
      rw [run] at h
      cases h
      exact hWF
  | cons op rest ih =>
      intro c d hWF h
      rw [run] at h
      rcases hstep : step c op with _ | c1
      · rw [hstep] at h; cases h
      · rw [hstep] at h
        obtain ⟨c1', hstep', hWF1⟩ := step_total c op hWF
        rw [hstep] at hstep'
        cases hstep'
        exact ih c1 d hWF1 h

theorem reachable_WF (capacity : Int) (c : LFUCache)
    (h : Reachable capacity c) : WF c := by
  obtain ⟨ops, hrun⟩ := h
  exact run_WF ops _ c (init_WF capacity) hrun

theorem run_append (l1 l2 : List Op) : ∀ c : LFUCache,
    run c (l1 ++ l2) =
      match run c l1 with
      | some c1 => run c1 l2
      | none => none := by
  induction l1 with
  | nil => intro c; simp [run]
  | cons op rest ih =>
      intro c
      rcases hstep : step c op with _ | c1
      · simp [run, hstep]
      · simp [run, hstep, ih c1]

theorem reachable_step (capacity : Int) (c c' : LFUCache) (op : Op)
    (h : Reachable capacity c) (hstep : step c op = some c') :
    Reachable capacity c' := by
  obtain ⟨ops, hrun⟩ := h
  refine ⟨ops ++ [op], ?_⟩
  rw [run_append, hrun]
  simp [run, hstep]

theorem reachable_run (capacity : Int) (c c' : LFUCache) (ops : List Op)
    (h : Reachable capacity c) (hrun : run c ops = some c') :
    Reachable capacity c' := by
  obtain ⟨ops0, hrun0⟩ := h
  refine ⟨ops0 ++ ops, ?_⟩
  rw [run_append, hrun0]
  exact hrun

theorem step_maxSize (c c' : LFUCache) (op : Op) (hWF : WF c)
    (hstep : step c op = some c') : c'.maxSize = c.maxSize := by
  cases op with
  | get k =>
      obtain ⟨r, c'', hget, _, _, hmax, _⟩ := get_spec c k hWF
      rw [step, hget] at hstep
      have hstep2 : some c'' = some c' := hstep
      cases hstep2
      exact hmax
  | put k v =>
      by_cases hmax : c.maxSize = 0
      · have h0 : c.put k v = some c := by
          unfold LFUCache.put
          rw [if_pos hmax]
        rw [step, h0] at hstep
        cases hstep
        rfl
      · rcases Option.eq_none_or_eq_some (alookup c.nodeMap k) with hlook | ⟨n, hlook⟩
        · by_cases hsize : c.curSize = c.maxSize
          · obtain ⟨b, e, c'', _, _, _, _, _, hput, _, _, hm, _⟩ :=
              put_evict_spec c k v hWF hmax hlook hsize
            rw [step, hput] at hstep
            cases hstep
            exact hm
          · obtain ⟨c'', hput, _, _, hm, _⟩ :=
              put_no_evict_spec c k v hWF hmax hlook hsize
            rw [step, hput] at hstep
            cases hstep
            exact hm
        · obtain ⟨c'', hput, _, _, hm, _⟩ := put_existing_spec c k v n hWF hmax hlook
          rw [step, hput] at hstep
          cases hstep
          exact hm

theorem run_maxSize (ops : List Op) : ∀ c d : LFUCache, WF c →
    run c ops = some d → d.maxSize = c.maxSize := by
  induction ops with
  | nil =>
      intro c d _ h
      rw [run] at h
      cases h
      rfl
  | cons op rest ih =>
      intro c d hWF h
      rw [run] at h
      rcases hstep : step c op with _ | c1
      · rw [hstep] at h; cases h
      · rw [hstep] at h
        obtain ⟨c1', hstep', hWF1⟩ := step_total c op hWF
        rw [hstep] at hstep'
        cases hstep'
        rw [ih c1 d hWF1 h, step_maxSize c c1 op hWF hstep]

theorem reachable_maxSize (capacity : Int) (c : LFUCache)
    (h : Reachable capacity c) : c.maxSize = capacity := by
  obtain ⟨ops, hrun⟩ := h
  exact run_maxSize ops _ c (init_WF capacity) hrun

theorem step_absent_stable (c c' : LFUCache) (op : Op) (k : Int) (hWF : WF c)
    (hab : alookup c.nodeMap k = none) (hop : ∀ v, op ≠ Op.put k v)
    (hstep : step c op = some c') : alookup c'.nodeMap k = none := by
  cases op with
  | get k0 =>
      obtain ⟨r, c'', hget, _, _, _, hkeys, _⟩ := get_spec c k0 hWF
      rw [step, hget] at hstep
      have hstep2 : some c'' = some c' := hstep
      cases hstep2
      rw [alookup_eq_none_iff] at hab ⊢
      rw [hkeys]
      exact hab
  | put k0 v =>
      have hk0 : k0 ≠ k := by
        intro hc
        exact hop v (by rw [hc])
      by_cases hmax : c.maxSize = 0
      · have h0 : c.put k0 v = some c := by
          unfold LFUCache.put
          rw [if_pos hmax]
        rw [step, h0] at hstep
        cases hstep
        exact hab
      · rcases Option.eq_none_or_eq_some (alookup c.nodeMap k0) with hlook | ⟨n, hlook⟩
        · by_cases hsize : c.curSize = c.maxSize
          · obtain ⟨b, e, c'', _, _, _, _, _, hput, _, _, _, _, _, hegone, _,
              hframe, _⟩ := put_evict_spec c k0 v hWF hmax hlook hsize
            rw [step, hput] at hstep
            cases hstep
            by_cases hke : k = e.key
            · rw [hke]; exact hegone
            · rw [hframe k (fun hc => hk0 hc.symm) hke]
              exact hab
          · obtain ⟨c'', hput, _, _, _, _, _, hframe⟩ :=
              put_no_evict_spec c k0 v hWF hmax hlook hsize
            rw [step, hput] at hstep
            cases hstep
            rw [hframe k (fun hc => hk0 hc.symm)]
            exact hab
        · obtain ⟨c'', hput, _, _, _, _, _, hframe⟩ :=
            put_existing_spec c k0 v n hWF hmax hlook
          rw [step, hput] at hstep
          cases hstep
          rw [hframe k (fun hc => hk0 hc.symm)]
          exact hab

theorem step_val_stable (c c' : LFUCache) (op : Op) (k : Int) (n : Node)
    (hWF : WF c) (hn : alookup c.nodeMap k = some n)
    (hop : ∀ v, op ≠ Op.put k v) (hstep : step c op = some c') :
    alookup c'.nodeMap k = none ∨
      ∃ n', alookup c'.nodeMap k = some n' ∧ n'.val = n.val := by
  cases op with
  | get k0 =>
      obtain ⟨r, c'', hget, _, _, _, _, hmiss, hhit⟩ := get_spec c k0 hWF
      rw [step, hget] at hstep
      have hstep2 : some c'' = some c' := hstep
      cases hstep2
      by_cases hk : k0 = k
      · subst hk
        obtain ⟨_, hlook', _⟩ := hhit n hn
        exact Or.inr ⟨_, hlook', rfl⟩
      · rcases Option.eq_none_or_eq_some (alookup c.nodeMap k0) with hl | ⟨n0, hl⟩
        · obtain ⟨_, hcc⟩ := hmiss hl
          rw [hcc]
          exact Or.inr ⟨n, hn, rfl⟩
        · obtain ⟨_, _, hframe⟩ := hhit n0 hl
          rw [hframe k (fun hc => hk hc.symm)]
          exact Or.inr ⟨n, hn, rfl⟩
  | put k0 v =>
      have hk0 : k0 ≠ k := by
        intro hc
        exact hop v (by rw [hc])
      by_cases hmax : c.maxSize = 0
      · have h0 : c.put k0 v = some c := by
          unfold LFUCache.put
          rw [if_pos hmax]
        rw [step, h0] at hstep
        cases hstep
        exact Or.inr ⟨n, hn, rfl⟩
      · rcases Option.eq_none_or_eq_some (alookup c.nodeMap k0) with hlook | ⟨n0, hlook⟩
        · by_cases hsize : c.curSize = c.maxSize
          · obtain ⟨b, e, c'', _, _, _, _, _, hput, _, _, _, _, _, hegone, _,
              hframe, _⟩ := put_evict_spec c k0 v hWF hmax hlook hsize
            rw [step, hput] at hstep
            cases hstep
            by_cases hke : k = e.key
            · rw [hke]; exact Or.inl hegone
            · rw [hframe k (fun hc => hk0 hc.symm) hke]
              exact Or.inr ⟨n, hn, rfl⟩
          · obtain ⟨c'', hput, _, _, _, _, _, hframe⟩ :=
              put_no_evict_spec c k0 v hWF hmax hlook hsize
            rw [step, hput] at hstep
            cases hstep
            rw [hframe k (fun hc => hk0 hc.symm)]
            exact Or.inr ⟨n, hn, rfl⟩
        · obtain ⟨c'', hput, _, _, _, _, _, hframe⟩ :=
            put_existing_spec c k0 v n0 hWF hmax hlook
          rw [step, hput] at hstep
          cases hstep
          rw [hframe k (fun hc => hk0 hc.symm)]
          exact Or.inr ⟨n, hn, rfl⟩

theorem run_absent_stable (ops : List Op) : ∀ c d : LFUCache, ∀ k : Int,
    WF c → alookup c.nodeMap k = none → (∀ v, Op.put k v ∉ ops) →
    run c ops = some d → alookup d.nodeMap k = none := by
  induction ops with
  | nil =>
      intro c d k _ hab _ h
      rw [run] at h
      cases h
      exact hab
  | cons op rest ih =>
      intro c d k hWF hab hno h
      rw [run] at h
      rcases hstep : step c op with _ | c1
      · rw [hstep] at h; cases h
      · rw [hstep] at h
        obtain ⟨c1', hstep', hWF1⟩ := step_total c op hWF
        rw [hstep] at hstep'
        cases hstep'
        have hop : ∀ v, op ≠ Op.put k v := by
          intro v hc
          exact hno v (by rw [← hc]; exact List.mem_cons_self _ _)
        have hab1 := step_absent_stable c c1 op k hWF hab hop hstep
        exact ih c1 d k hWF1 hab1
          (fun v hv => hno v (List.mem_cons_of_mem _ hv)) h

theorem run_val_stable (ops : List Op) : ∀ c d : LFUCache, ∀ k : Int, ∀ n : Node,
    WF c → alookup c.nodeMap k = some n → (∀ v, Op.put k v ∉ ops) →
    run c ops = some d →
    ∀ n', alookup d.nodeMap k = some n' → n'.val = n.val := by
  induction ops with
  | nil =>
      intro c d k n _ hn _ h n' hn'
      rw [run] at h
      cases h
      rw [hn] at hn'
      cases hn'
      rfl
  | cons op rest ih =>
      intro c d k n hWF hn hno h n' hn'
      rw [run] at h
      rcases hstep : step c op with _ | c1
      · rw [hstep] at h; cases h
      · rw [hstep] at h
        obtain ⟨c1', hstep', hWF1⟩ := step_total c op hWF
        rw [hstep] at hstep'
        cases hstep'
        have hop : ∀ v, op ≠ Op.put k v := by
          intro v hc
          exact hno v (by rw [← hc]; exact List.mem_cons_self _ _)
        have hrest : ∀ v, Op.put k v ∉ rest :=
          fun v hv => hno v (List.mem_cons_of_mem _ hv)
        rcases step_val_stable c c1 op k n hWF hn hop hstep with hnone | ⟨n1, hn1, hval⟩
        · have := run_absent_stable rest c1 d k hWF1 hnone hrest h
          rw [this] at hn'
          cases hn'
        · rw [← hval]
          exact ih c1 d k n1 hWF1 hn1 hrest h n' hn'

/-! ## The claims -/

theorem run_init_zero (ops : List Op) :
    run (LFUCache.init 0) ops = some (LFUCache.init 0) := by
  induction ops with
  | nil => rfl
  | cons op rest ih =>
      have hstep : step (LFUCache.init 0) op = some (LFUCache.init 0) := by
        cases op with
        | get k => rfl
        | put k v => rfl
      rw [run, hstep]
      exact ih

/-- C6: on a cache with capacity 0, `put` is a no-op checked before any
other logic (it holds for an arbitrary state whose `maxSize` is 0, not
just reachable ones), every operation sequence on a capacity-0 cache
leaves it in its initial state, and `get` on it always returns the miss
value `-1`; no entry is ever retained. -/
theorem claim_C6 (c : LFUCache) (k v : Int) (hmax : c.maxSize = 0)
    (ops : List Op) (k2 : Int) :
    c.put k v = some c ∧
    run (LFUCache.init 0) ops = some (LFUCache.init 0) ∧
    LFUCache.get (LFUCache.init 0) k2 = some (-1, LFUCache.init 0) := by
  refine ⟨?_, run_init_zero ops, rfl⟩
  unfold LFUCache.put
  rw [if_pos hmax]

theorem claim_C6_witness :
    (LFUCache.init 0).put 1 5 = some (LFUCache.init 0) ∧
    run (LFUCache.init 0) [Op.put 1 2] = some (LFUCache.init 0) ∧
    LFUCache.get (LFUCache.init 0) 1 = some (-1, LFUCache.init 0) :=
  claim_C6 (LFUCache.init 0) 1 5 rfl [Op.put 1 2] 1

/-- C7 counterexample: constructing with the negative capacity `-1` is
not rejected — the constructor stores the capacity unvalidated and the
resulting cache is usable: `put(1,5)` stores the entry and `get(1)`
returns 5. -/
theorem claim_C7_counterexample :
    run (LFUCache.init (-1)) [Op.put 1 5] = some
      {
        minf := 1,
        curSize := 1,
        maxSize := -1,
        nodeMap := [(1, ⟨1, 5, 1⟩)],
        listMap := [(1, [⟨1, 5, 1⟩])] } ∧
    ({
        minf := 1,
        curSize := 1,
        maxSize := -1,
        nodeMap := [(1, ⟨1, 5, 1⟩)],
        listMap := [(1, [⟨1, 5, 1⟩])] } : LFUCache).get 1 =
      some (5, {
        minf := 2,
        curSize := 1,
        maxSize := -1,
        nodeMap := [(1, ⟨1, 5, 2⟩)],
        listMap := [(1, []), (2, [⟨1, 5, 2⟩])] }) :=
  ⟨by decide, by decide⟩

/-- C7 amended: the constructor performs no validation.  A negative
capacity is accepted and stored as-is, every operation sequence on the
resulting cache succeeds, and a single `put` already pushes `curSize`
above the (negative) capacity — the full-cache check `curSize == maxSize`
never fires. -/
theorem claim_C7 (capacity : Int) (hneg : capacity < 0) (ops : List Op) :
    (LFUCache.init capacity).maxSize = capacity ∧
    (∃ c, run (LFUCache.init capacity) ops = some c) ∧
    (∃ c', (LFUCache.init capacity).put 1 1 = some c' ∧
      capacity < c'.curSize) := by
  refine ⟨rfl, ?_, ?_⟩
  · obtain ⟨c, h, _⟩ := run_total ops (LFUCache.init capacity) (init_WF capacity)
    exact ⟨c, h⟩
  · have hmax : (LFUCache.init capacity).maxSize ≠ 0 := by
      show capacity ≠ 0
      omega
    have hlook : alookup (LFUCache.init capacity).nodeMap 1 = none := rfl
    have hsize : (LFUCache.init capacity).curSize ≠ (LFUCache.init capacity).maxSize := by
      show (0 : Int) ≠ capacity
      omega
    obtain ⟨c', hput, _, hcur, _⟩ :=
      put_no_evict_spec (LFUCache.init capacity) 1 1 (init_WF capacity) hmax hlook hsize
    refine ⟨c', hput, ?_⟩
    rw [hcur]
    show capacity < (0 : Int) + 1
    omega

theorem claim_C7_witness :
    (LFUCache.init (-1)).maxSize = -1 ∧
    (∃ c, run (LFUCache.init (-1)) [Op.get 3] = some c) ∧
    (∃ c', (LFUCache.init (-1)).put 1 1 = some c' ∧ (-1 : Int) < c'.curSize) :=
  claim_C7 (-1) (by decide) [Op.get 3]

/-- C3 counterexample: with capacity 1, after `put(1,0); get(1)` the
bucket index still holds the emptied bucket for frequency 1 (the source
never erases buckets), the cache is non-empty, and `minf = 2` while the
smallest frequency key present in the bucket index is 1. -/
theorem claim_C3_counterexample :
    ∃ s, run (LFUCache.init 1) [Op.put 1 0, Op.get 1] = some s ∧
      s.curSize ≠ 0 ∧ alookup s.listMap 1 = some [] ∧ s.minf = 2 :=
  ⟨cachePromoted, by decide, by decide, by decide, by decide⟩

/-- C3 amended: buckets that become empty are retained in the Bucket
Index, not removed; what holds instead is that whenever the cache is
non-empty, `minf` names a non-empty bucket and is a lower bound on the
frequency of every non-empty bucket — i.e. `minFrequency` equals the
smallest frequency whose bucket is non-empty, with stale empty buckets
possibly present at smaller keys. -/
theorem claim_C3 (capacity : Int) (c : LFUCache)
    (hreach : Reachable capacity c) (hne : c.curSize ≠ 0) :
    (∃ b, alookup c.listMap c.minf = some b ∧ b ≠ []) ∧
    (∀ f b, alookup c.listMap f = some b → b ≠ [] → c.minf ≤ f) := by
  have hWF := reachable_WF _ _ hreach
  have hmapne : c.nodeMap ≠ [] := by
    intro hc
    apply hne
    rw [hWF.size_eq, hc]
    simp
  exact ⟨hWF.minf_mem hmapne, hWF.minf_le⟩

theorem claim_C3_witness :
    (∃ b, alookup cachePromoted.listMap cachePromoted.minf = some b ∧ b ≠ []) ∧
    (∀ f b, alookup cachePromoted.listMap f = some b → b ≠ [] →
      cachePromoted.minf ≤ f) :=
  claim_C3 1 cachePromoted ⟨[Op.put 1 0, Op.get 1], by decide⟩ (by decide)

/-- C4: on every reachable state, `get` succeeds, never changes
`curSize`, never removes a key from the key index, and on a miss returns
`-1` leaving the whole state unchanged. -/
theorem claim_C4 (capacity : Int) (c : LFUCache) (k : Int)
    (hreach : Reachable capacity c) :
    ∃ r c', c.get k = some (r, c') ∧
      c'.curSize = c.curSize ∧
      (∀ k', (alookup c.nodeMap k').isSome → (alookup c'.nodeMap k').isSome) ∧
      (alookup c.nodeMap k = none → r = -1 ∧ c' = c) := by
  have hWF := reachable_WF _ _ hreach
  obtain ⟨r, c', hget, _, hcur, _, hkeys, hmiss, _⟩ := get_spec c k hWF
  refine ⟨r, c', hget, hcur, ?_, hmiss⟩
  intro k' h
  rw [alookup_isSome_iff] at h ⊢
  rw [hkeys]
  exact h

theorem claim_C4_witness :
    ∃ r c', cacheTwoFull.get 10 = some (r, c') ∧
      c'.curSize = cacheTwoFull.curSize ∧
      (∀ k', (alookup cacheTwoFull.nodeMap k').isSome →
        (alookup c'.nodeMap k').isSome) ∧
      (alookup cacheTwoFull.nodeMap 10 = none → r = -1 ∧ c' = cacheTwoFull) :=
  claim_C4 2 cacheTwoFull 10 ⟨[Op.put 10 5, Op.put 20 6], by decide⟩

/-- C10: in every reachable state with positive capacity, whenever the
eviction branch of `put` would run (key absent, `curSize == capacity`),
the bucket index already has a bucket at `minf`, that bucket is
non-empty (so the `listMap[minf]` lookup finds an existing bucket rather
than creating one), and its last element — the node the eviction removes
— is a real entry registered in the key index, never a sentinel. -/
theorem claim_C10 (capacity : Int) (c : LFUCache) (k : Int)
    (hreach : Reachable capacity c) (hcap : 0 < capacity)
    (habsent : alookup c.nodeMap k = none) (hfull : c.curSize = c.maxSize) :
    ∃ b, alookup c.listMap c.minf = some b ∧ 1 ≤ b.length ∧
      ∃ e, b.getLast? = some e ∧ alookup c.nodeMap e.key = some e := by
  have hWF := reachable_WF _ _ hreach
  have hmaxeq := reachable_maxSize _ _ hreach
  have hne : c.nodeMap ≠ [] := by
    intro hc
    have h2 := hWF.size_eq
    rw [hc] at h2
    simp at h2
    omega
  obtain ⟨b, hb, hbne⟩ := hWF.minf_mem hne
  obtain ⟨e, he⟩ := getLast?_isSome_of_ne_nil b hbne
  refine ⟨b, hb, ?_, e, he, hWF.bucket_in_map _ _ hb e (mem_of_getLast? b e he)⟩
  cases b with
  | nil => exact absurd rfl hbne
  | cons x t => simp

theorem claim_C10_witness :
    ∃ b, alookup cacheTwoFull.listMap cacheTwoFull.minf = some b ∧
      1 ≤ b.length ∧
      ∃ e, b.getLast? = some e ∧ alookup cacheTwoFull.nodeMap e.key = some e :=
  claim_C10 2 cacheTwoFull 30 ⟨[Op.put 10 5, Op.put 20 6], by decide⟩
    (by decide) (by decide) (by decide)

/-- C9 counterexample: the miss marker of `get` is the plain value `-1`,
which a stored value can collide with.  With capacity 2, after
`put(1,-1)` key 1 is present with stored value `-1` and key 2 is absent,
yet `get(1)` (a hit) and `get(2)` (a miss) return the same result value
`-1` — they are not distinguishable. -/
theorem claim_C9_counterexample :
    ∃ s, run (LFUCache.init 2) [Op.put 1 (-1)] = some s ∧
      alookup s.nodeMap 1 = some ⟨1, -1, 1⟩ ∧
      alookup s.nodeMap 2 = none ∧
      (∃ p, s.get 1 = some p ∧ p.1 = -1) ∧
      (∃ q, s.get 2 = some q ∧ q.1 = -1) := by
  refine ⟨{
      minf := 1,
      curSize := 1,
      maxSize := 2,
      nodeMap := [(1, ⟨1, -1, 1⟩)],
      listMap := [(1, [⟨1, -1, 1⟩])] },
    by decide, by decide, by decide,
    ⟨((-1 : Int), {
      minf := 2,
      curSize := 1,
      maxSize := 2,
      nodeMap := [(1, ⟨1, -1, 2⟩)],
      listMap := [(1, []), (2, [⟨1, -1, 2⟩])] }), by decide, rfl⟩,
    ⟨((-1 : Int), {
      minf := 1,
      curSize := 1,
      maxSize := 2,
      nodeMap := [(1, ⟨1, -1, 1⟩)],
      listMap := [(1, [⟨1, -1, 1⟩])] }), by decide, rfl⟩⟩

/-- C9 amended: `get` signals a miss with the sentinel `-1`, which is
itself a storable value: on a miss the result is exactly `-1` (state
unchanged), and a hit is distinguishable from a miss only when the
stored value is not `-1` — in that case the returned value differs from
the miss marker. -/
theorem claim_C9 (capacity : Int) (c : LFUCache) (k : Int)
    (hreach : Reachable capacity c) :
    (alookup c.nodeMap k = none → c.get k = some (-1, c)) ∧
    (∀ n, alookup c.nodeMap k = some n → n.val ≠ -1 →
      ∃ r c', c.get k = some (r, c') ∧ r = n.val ∧ r ≠ -1) := by
  have hWF := reachable_WF _ _ hreach
  obtain ⟨r, c', hget, _, _, _, _, hmiss, hhit⟩ := get_spec c k hWF
  constructor
  · intro hab
    obtain ⟨hr, hcc⟩ := hmiss hab
    subst hr
    subst hcc
    exact hget
  · intro n hn hval
    obtain ⟨hr, _, _⟩ := hhit n hn
    refine ⟨r, c', hget, hr, ?_⟩
    rw [hr]
    exact hval

theorem claim_C9_witness :
    (alookup cacheTwoFull.nodeMap 10 = none →
      cacheTwoFull.get 10 = some (-1, cacheTwoFull)) ∧
    (∀ n, alookup cacheTwoFull.nodeMap 10 = some n → n.val ≠ -1 →
      ∃ r c', cacheTwoFull.get 10 = some (r, c') ∧ r = n.val ∧ r ≠ -1) :=
  claim_C9 2 cacheTwoFull 10 ⟨[Op.put 10 5, Op.put 20 6], by decide⟩

/-- C1: on every reachable full cache with positive capacity, `put` of an
absent key evicts exactly one entry before inserting: the last element
(the `tail->prev` node) of `bucket(minf)`, whose frequency `minf` is
minimal among all stored entries; it disappears from the key index and
from the bucket, every other entry is untouched, the net `curSize` is
unchanged (decrement before insertion, increment after), and the new
entry is stored.  The bucket's list order encodes recency — `addNode`
always prepends — so the last element is the least recently
inserted-or-promoted entry of the minimal frequency. -/
theorem claim_C1 (capacity : Int) (c : LFUCache) (k v : Int)
    (hreach : Reachable capacity c) (hcap : 0 < capacity)
    (habsent : alookup c.nodeMap k = none) (hfull : c.curSize = c.maxSize) :
    ∃ b e c', alookup c.listMap c.minf = some b ∧ b.getLast? = some e ∧
      e.count = c.minf ∧
      (∀ k' n, alookup c.nodeMap k' = some n → c.minf ≤ n.count) ∧
      c.put k v = some c' ∧ e.key ≠ k ∧
      alookup c'.nodeMap e.key = none ∧
      (∀ b', alookup c'.listMap c.minf = some b' → e.key ∉ b'.map Node.key) ∧
      (∀ k', k' ≠ k → k' ≠ e.key →
        alookup c'.nodeMap k' = alookup c.nodeMap k') ∧
      c'.curSize = c.curSize ∧
      alookup c'.nodeMap k = some ⟨k, v, 1⟩ := by
  have hWF := reachable_WF _ _ hreach
  have hmax : c.maxSize ≠ 0 := by
    rw [reachable_maxSize _ _ hreach]
    omega
  obtain ⟨b, e, c', hb, he, hemap, hecount, hmin, hput, hWF', hcur, hmaxeq,
    hminf, hek, hgone, hkin, hframe, hbuck⟩ :=
    put_evict_spec c k v hWF hmax habsent hfull
  exact ⟨b, e, c', hb, he, hecount, hmin, hput, hek, hgone, hbuck, hframe,
    hcur, hkin⟩

theorem claim_C1_witness :
    ∃ b e c', alookup cacheTwoFull.listMap cacheTwoFull.minf = some b ∧
      b.getLast? = some e ∧
      e.count = cacheTwoFull.minf ∧
      (∀ k' n, alookup cacheTwoFull.nodeMap k' = some n →
        cacheTwoFull.minf ≤ n.count) ∧
      cacheTwoFull.put 30 7 = some c' ∧ e.key ≠ 30 ∧
      alookup c'.nodeMap e.key = none ∧
      (∀ b', alookup c'.listMap cacheTwoFull.minf = some b' →
        e.key ∉ b'.map Node.key) ∧
      (∀ k', k' ≠ 30 → k' ≠ e.key →
        alookup c'.nodeMap k' = alookup cacheTwoFull.nodeMap k') ∧
      c'.curSize = cacheTwoFull.curSize ∧
      alookup c'.nodeMap 30 = some ⟨30, 7, 1⟩ :=
  claim_C1 2 cacheTwoFull 30 7 ⟨[Op.put 10 5, Op.put 20 6], by decide⟩
    (by decide) (by decide) (by decide)

/-- C2: from any non-negative capacity, every operation sequence runs to
a state with `0 ≤ curSize ≤ capacity` (so this holds after each call, by
instantiating the sequence with each prefix), and each single further
`put` removes at most one existing key (at most one eviction per
call). -/
theorem claim_C2 (capacity : Int) (hcap : 0 ≤ capacity) (ops : List Op) :
    ∃ c, run (LFUCache.init capacity) ops = some c ∧
      0 ≤ c.curSize ∧ c.curSize ≤ capacity ∧
      (∀ k v, ∃ c', c.put k v = some c' ∧
        ∃ evicted : Int, ∀ k', (alookup c.nodeMap k').isSome →
          alookup c'.nodeMap k' = none → k' = evicted) := by
  obtain ⟨c, hrun, hWF⟩ := run_total ops (LFUCache.init capacity) (init_WF capacity)
  have hmaxeq : c.maxSize = capacity :=
    run_maxSize ops (LFUCache.init capacity) c (init_WF capacity) hrun
  refine ⟨c, hrun, ?_, ?_, ?_⟩
  · have h1 := hWF.size_eq
    omega
  · have h1 := hWF.size_le (by omega)
    omega
  · intro k v
    by_cases hmax : c.maxSize = 0
    · have h0 : c.put k v = some c := by
        unfold LFUCache.put
        rw [if_pos hmax]
      refine ⟨c, h0, 0, ?_⟩
      intro k' h1 h2
      rw [h2] at h1
      simp at h1
    · rcases Option.eq_none_or_eq_some (alookup c.nodeMap k) with hlook | ⟨n, hlook⟩
      · by_cases hsize : c.curSize = c.maxSize
        · obtain ⟨b, e, c', _, _, _, _, _, hput, _, _, _, _, _, _, hkin,
            hframe, _⟩ := put_evict_spec c k v hWF hmax hlook hsize
          refine ⟨c', hput, e.key, ?_⟩
          intro k' h1 h2
          by_contra hne
          by_cases hk : k' = k
          · rw [hk, hkin] at h2
            cases h2
          · rw [hframe k' hk hne] at h2
            rw [h2] at h1
            simp at h1
        · obtain ⟨c', hput, _, _, _, _, hkin, hframe⟩ :=
            put_no_evict_spec c k v hWF hmax hlook hsize
          refine ⟨c', hput, 0, ?_⟩
          intro k' h1 h2
          by_cases hk : k' = k
          · rw [hk, hkin] at h2
            cases h2
          · rw [hframe k' hk] at h2
            rw [h2] at h1
            simp at h1
      · obtain ⟨c', hput, _, _, _, _, hkin, hframe⟩ :=
          put_existing_spec c k v n hWF hmax hlook
        refine ⟨c', hput, 0, ?_⟩
        intro k' h1 h2
        by_cases hk : k' = k
        · rw [hk, hkin] at h2
          cases h2
        · rw [hframe k' hk] at h2
          rw [h2] at h1
          simp at h1

theorem claim_C2_witness :
    0 ≤ (2 : Int) ∧
    ∃ c, run (LFUCache.init 2) [Op.put 1 5, Op.get 1, Op.put 2 6] = some c ∧
      0 ≤ c.curSize ∧ c.curSize ≤ 2 ∧
      (∀ k v, ∃ c', c.put k v = some c' ∧
        ∃ evicted : Int, ∀ k', (alookup c.nodeMap k').isSome →
          alookup c'.nodeMap k' = none → k' = evicted) :=
  ⟨by decide, claim_C2 2 (by decide) [Op.put 1 5, Op.get 1, Op.put 2 6]⟩

/-- C5: on every reachable state with non-zero capacity, after
`put(k,v)` the key `k` holds `v`: an immediate `get(k)` returns `v`;
if `k` was already present the `put` leaves `curSize` unchanged (update
in place); and after any further operations that contain no `put` to `k`,
as long as `k` is still in the key index (i.e. it has not been evicted),
`get(k)` still returns `v` — the most recently put value. -/
theorem claim_C5 (capacity : Int) (c : LFUCache) (k v : Int) (ops : List Op)
    (hreach : Reachable capacity c) (hmax : c.maxSize ≠ 0) :
    ∃ c', c.put k v = some c' ∧
      (∃ c2, c'.get k = some (v, c2)) ∧
      (∀ n, alookup c.nodeMap k = some n → c'.curSize = c.curSize) ∧
      ((∀ w, Op.put k w ∉ ops) →
        ∀ d, run c' ops = some d →
          ∀ n', alookup d.nodeMap k = some n' →
            ∃ d2, d.get k = some (v, d2)) := by
  have hWF := reachable_WF _ _ hreach
  have hmain : ∃ c', c.put k v = some c' ∧ WF c' ∧
      (∃ nc, alookup c'.nodeMap k = some nc ∧ nc.val = v) ∧
      (∀ n, alookup c.nodeMap k = some n → c'.curSize = c.curSize) := by
    rcases Option.eq_none_or_eq_some (alookup c.nodeMap k) with hlook | ⟨n, hlook⟩
    · by_cases hsize : c.curSize = c.maxSize
      · obtain ⟨b, e, c', _, _, _, _, _, hput, hWF', hcur, _, _, _, _, hkin,
          _, _⟩ := put_evict_spec c k v hWF hmax hlook hsize
        exact ⟨c', hput, hWF', ⟨⟨k, v, 1⟩, hkin, rfl⟩,
          fun n hn => by rw [hlook] at hn; cases hn⟩
      · obtain ⟨c', hput, hWF', _, _, _, hkin, _⟩ :=
          put_no_evict_spec c k v hWF hmax hlook hsize
        exact ⟨c', hput, hWF', ⟨⟨k, v, 1⟩, hkin, rfl⟩,
          fun n hn => by rw [hlook] at hn; cases hn⟩
    · obtain ⟨c', hput, hWF', hcur, _, _, hkin, _⟩ :=
        put_existing_spec c k v n hWF hmax hlook
      exact ⟨c', hput, hWF', ⟨⟨k, v, n.count + 1⟩, hkin, rfl⟩, fun _ _ => hcur⟩
  obtain ⟨c', hput, hWF', ⟨nc, hnc, hncval⟩, hcursz⟩ := hmain
  refine ⟨c', hput, ?_, hcursz, ?_⟩
  · obtain ⟨r, c2, hget, _, _, _, _, _, hhit⟩ := get_spec c' k hWF'
    obtain ⟨hr, _, _⟩ := hhit nc hnc
    refine ⟨c2, ?_⟩
    rw [← hncval, ← hr]
    exact hget
  · intro hnp d hrund n' hn'
    have hWFd : WF d := run_WF ops c' d hWF' hrund
    have hval : n'.val = nc.val :=
      run_val_stable ops c' d k nc hWF' hnc (fun w hw => hnp w hw) hrund n' hn'
    obtain ⟨r, d2, hget, _, _, _, _, _, hhit⟩ := get_spec d k hWFd
    obtain ⟨hr, _, _⟩ := hhit n' hn'
    refine ⟨d2, ?_⟩
    rw [← hncval, ← hval, ← hr]
    exact hget

theorem claim_C5_witness :
    ∃ c', cacheTwoFull.put 10 99 = some c' ∧
      (∃ c2, c'.get 10 = some (99, c2)) ∧
      (∀ n, alookup cacheTwoFull.nodeMap 10 = some n →
        c'.curSize = cacheTwoFull.curSize) ∧
      ((∀ w, Op.put 10 w ∉ [Op.get 20]) →
        ∀ d, run c' [Op.get 20] = some d →
          ∀ n', alookup d.nodeMap 10 = some n' →
            ∃ d2, d.get 10 = some (99, d2)) :=
  claim_C5 2 cacheTwoFull 10 99 [Op.get 20]
    ⟨[Op.put 10 5, Op.put 20 6], by decide⟩ (by decide)

/-- C8: an entry is created with frequency 1 by the first `put` of its
key; a `get` of a present key, or a `put` of a present key, increments
its frequency by exactly 1; and across any single reachable step an
entry that survives never sees its frequency decrease — no decay until
eviction (composing steps extends this to every reachable sequence in
which the entry survives). -/
theorem claim_C8 (capacity : Int) (c : LFUCache) (k : Int)
    (hreach : Reachable capacity c) :
    (alookup c.nodeMap k = none → c.maxSize ≠ 0 → ∀ v, ∃ c',
      c.put k v = some c' ∧ alookup c'.nodeMap k = some ⟨k, v, 1⟩) ∧
    (∀ n, alookup c.nodeMap k = some n →
      (∃ r c', c.get k = some (r, c') ∧
        alookup c'.nodeMap k = some { n with count := n.count + 1 }) ∧
      (∀ v, ∃ c', c.put k v = some c' ∧
        alookup c'.nodeMap k = some ⟨k, v, n.count + 1⟩)) ∧
    (∀ op c' n n', step c op = some c' → alookup c.nodeMap k = some n →
      alookup c'.nodeMap k = some n' → n.count ≤ n'.count) := by
  have hWF := reachable_WF _ _ hreach
  refine ⟨?_, ?_, ?_⟩
  · intro hlook hmax v
    by_cases hsize : c.curSize = c.maxSize
    · obtain ⟨b, e, c', _, _, _, _, _, hput, _, _, _, _, _, _, hkin, _, _⟩ :=
        put_evict_spec c k v hWF hmax hlook hsize
      exact ⟨c', hput, hkin⟩
    · obtain ⟨c', hput, _, _, _, _, hkin, _⟩ :=
        put_no_evict_spec c k v hWF hmax hlook hsize
      exact ⟨c', hput, hkin⟩
  · intro n hn
    constructor
    · obtain ⟨r, c', hget, _, _, _, _, _, hhit⟩ := get_spec c k hWF
      obtain ⟨_, hlook', _⟩ := hhit n hn
      exact ⟨r, c', hget, hlook'⟩
    · intro v
      have hmax : c.maxSize ≠ 0 := by
        intro h0
        have h1 := hWF.size_le (by omega)
        have h2 := hWF.size_eq
        have h3 : c.nodeMap.length = 0 := by omega
        have h4 : c.nodeMap = [] := List.length_eq_zero.mp h3
        rw [h4] at hn
        simp [alookup] at hn
      obtain ⟨c', hput, _, _, _, _, hkin, _⟩ :=
        put_existing_spec c k v n hWF hmax hn
      exact ⟨c', hput, hkin⟩
  · intro op c' n n' hstep hn hn'
    cases op with
    | get k0 =>
        obtain ⟨r, c'', hget, _, _, _, _, hmiss, hhit⟩ := get_spec c k0 hWF
        rw [step, hget] at hstep
        have hstep2 : some c'' = some c' := hstep
        cases hstep2
        by_cases hk : k0 = k
        · subst hk
          obtain ⟨_, hlook', _⟩ := hhit n hn
          rw [hlook'] at hn'
          cases hn'
          show n.count ≤ n.count + 1
          omega
        · rcases Option.eq_none_or_eq_some (alookup c.nodeMap k0) with hl | ⟨n0, hl⟩
          · obtain ⟨_, hcc⟩ := hmiss hl
            rw [hcc, hn] at hn'
            cases hn'
            omega
          · obtain ⟨_, _, hframe⟩ := hhit n0 hl
            rw [hframe k (fun hc => hk hc.symm), hn] at hn'
            cases hn'
            omega
    | put k0 v =>
        by_cases hmax : c.maxSize = 0
        · have h0 : c.put k0 v = some c := by
            unfold LFUCache.put
            rw [if_pos hmax]
          rw [step, h0] at hstep
          cases hstep
          rw [hn] at hn'
          cases hn'
          omega
        · rcases Option.eq_none_or_eq_some (alookup c.nodeMap k0) with hlook | ⟨n0, hlook⟩
          · have hk : k0 ≠ k := by
              intro hc
              rw [hc, hn] at hlook
              cases hlook
            by_cases hsize : c.curSize = c.maxSize
            · obtain ⟨b, e, c'', _, _, _, _, _, hput, _, _, _, _, _, hegone, _,
                hframe, _⟩ := put_evict_spec c k0 v hWF hmax hlook hsize
              rw [step, hput] at hstep
              cases hstep
              by_cases hke : k = e.key
              · rw [hke, hegone] at hn'
                cases hn'
              · rw [hframe k (fun hc => hk hc.symm) hke, hn] at hn'
                cases hn'
                omega
            · obtain ⟨c'', hput, _, _, _, _, _, hframe⟩ :=
                put_no_evict_spec c k0 v hWF hmax hlook hsize
              rw [step, hput] at hstep
              cases hstep
              rw [hframe k (fun hc => hk hc.symm), hn] at hn'
              cases hn'
              omega
          · obtain ⟨c'', hput, _, _, _, _, hkin, hframe⟩ :=
              put_existing_spec c k0 v n0 hWF hmax hlook
            rw [step, hput] at hstep
            cases hstep
            by_cases hk : k0 = k
            · subst hk
              rw [hn] at hlook
              cases hlook
              rw [hkin] at hn'
              cases hn'
              show n.count ≤ n.count + 1
              omega
            · rw [hframe k (fun hc => hk hc.symm), hn] at hn'
              cases hn'
              omega

theorem claim_C8_witness :
    (alookup cacheTwoFull.nodeMap 10 = none → cacheTwoFull.maxSize ≠ 0 →
      ∀ v, ∃ c', cacheTwoFull.put 10 v = some c' ∧
        alookup c'.nodeMap 10 = some ⟨10, v, 1⟩) ∧
    (∀ n, alookup cacheTwoFull.nodeMap 10 = some n →
      (∃ r c', cacheTwoFull.get 10 = some (r, c') ∧
        alookup c'.nodeMap 10 = some { n with count := n.count + 1 }) ∧
      (∀ v, ∃ c', cacheTwoFull.put 10 v = some c' ∧
        alookup c'.nodeMap 10 = some ⟨10, v, n.count + 1⟩)) ∧
    (∀ op c' n n', step cacheTwoFull op = some c' →
      alookup cacheTwoFull.nodeMap 10 = some n →
      alookup c'.nodeMap 10 = some n' → n.count ≤ n'.count) :=
  claim_C8 2 cacheTwoFull 10 ⟨[Op.put 10 5, Op.put 20 6], by decide⟩
